import Mathlib

/-!
# Verification of `scripts/bench/summarize.py`

Shallow embedding of the benchmark-summary script. The script reads a
Google-benchmark JSON file, normalizes each measurement to nanoseconds,
classifies each benchmark name into a (case, rows, engine) triple,
folds the measurements into a keyed summary table (last write wins),
and emits a CSV with a five-field header and one data row per key,
sorted by (case, rows).

Modelling conventions:
* Python floats are modelled as `ℚ` (all operations the script performs
  on them are field operations and comparisons).
* Python exceptions are modelled with `Except Err`; the two `ValueError`
  sites of the script are the two constructors of `Err`.
* A benchmark entry is modelled by the five JSON fields the script
  reads; an absent field is `none`.  `aggregate_name` and `run_type`
  are strings in Google-benchmark output; Python truthiness of a string
  is nonemptiness.
* The Python dicts (`summary` and its per-key rows) are modelled as
  association lists with insertion-order append and overwrite-in-place,
  matching `dict` semantics; the emitter only reads them through lookup
  and through the sorted key list, so association-list order never
  reaches the output.
* `sorted(summary.keys())` sorts `(str, int)` tuples lexicographically,
  strings by code point; this is `List.insertionSort` with the
  lexicographic order `keyLE` (any stable comparison sort computes the
  same list).
* Python `int(str)` is embedded by CPython's own two-stage algorithm:
  the decimal-and-space-to-ASCII transform (which accepts any Unicode
  decimal digit and strips any Unicode whitespace) followed by the
  ASCII-level parser with its sign and underscore rules.
-/

namespace Summarize

instance {ε α : Type} [DecidableEq ε] [DecidableEq α] :
    DecidableEq (Except ε α) := fun x y =>
  match x, y with
  | .ok a, .ok b =>
    if h : a = b then .isTrue (by rw [h])
    else .isFalse (by intro hc; cases hc; exact h rfl)
  | .error a, .error b =>
    if h : a = b then .isTrue (by rw [h])
    else .isFalse (by intro hc; cases hc; exact h rfl)
  | .ok _, .error _ => .isFalse (by intro hc; cases hc)
  | .error _, .ok _ => .isFalse (by intro hc; cases hc)

/-- The two `ValueError` sites of the script: `to_ns` raising on an
unsupported time unit (carrying the unit string), and `int(arg)` raising
on a malformed benchmark-name argument (carrying the argument string). -/
inductive Err where
  | unsupportedUnit (unit : String)
  | valueError (arg : String)
  deriving DecidableEq, Repr

/-- Embedding of `to_ns(value, unit)`: normalize a measurement to
nanoseconds, failing on any unit outside ns/us/ms/s. -/
def to_ns (value : ℚ) (unit : String) : Except Err ℚ :=
  if unit = "ns" then .ok value
  else if unit = "us" then .ok (value * 1000)
  else if unit = "ms" then .ok (value * 1000000)
  else if unit = "s" then .ok (value * 1000000000)
  else .error (.unsupportedUnit unit)

/-- CPython `int(str)` first maps the text to ASCII
(`_PyUnicode_TransformDecimalAndSpaceToASCII`): code points below 127
are kept, non-ASCII Unicode whitespace becomes a space, non-ASCII
Unicode decimal digits (category Nd) become the corresponding ASCII
digit, and anything else becomes `'?'` (which the ASCII parser then
rejects).  This is the non-ASCII whitespace set of that transform. -/
def pyIsSpaceHigh (c : Char) : Bool :=
  c.toNat = 0x85 || c.toNat = 0xA0 || c.toNat = 0x1680 ||
  (0x2000 ≤ c.toNat && c.toNat ≤ 0x200A) ||
  c.toNat = 0x2028 || c.toNat = 0x2029 || c.toNat = 0x202F ||
  c.toNat = 0x205F || c.toNat = 0x3000

/-- Zero code points of the non-ASCII Unicode decimal-digit (Nd)
blocks, Unicode 15.0 (the table CPython 3.12 ships); each block is the
ten code points from its zero. -/
def pyDecimalZeros : List Nat :=
  [0x0660, 0x06F0, 0x07C0, 0x0966, 0x09E6, 0x0A66, 0x0AE6, 0x0B66,
   0x0BE6, 0x0C66, 0x0CE6, 0x0D66, 0x0DE6, 0x0E50, 0x0ED0, 0x0F20,
   0x1040, 0x1090, 0x17E0, 0x1810, 0x1946, 0x19D0, 0x1A80, 0x1A90,
   0x1B50, 0x1BB0, 0x1C40, 0x1C50, 0xA620, 0xA8D0, 0xA900, 0xA9D0,
   0xA9F0, 0xAA50, 0xABF0, 0xFF10, 0x104A0, 0x10D30, 0x11066, 0x110F0,
   0x11136, 0x111D0, 0x112F0, 0x11450, 0x114D0, 0x11650, 0x116C0,
   0x11730, 0x118E0, 0x11950, 0x11C50, 0x11D50, 0x11DA0, 0x11F50,
   0x16A60, 0x16AC0, 0x16B50, 0x1D7CE, 0x1D7D8, 0x1D7E2, 0x1D7EC,
   0x1D7F6, 0x1E140, 0x1E2F0, 0x1E4F0, 0x1E950, 0x1FBF0]

/-- Decimal value of a non-ASCII Unicode decimal digit, `none` for
anything outside the Nd blocks. -/
def pyToDecimal (c : Char) : Option Nat :=
  (pyDecimalZeros.find? fun z => z ≤ c.toNat && c.toNat < z + 10).map
    fun z => c.toNat - z

/-- The ten ASCII digits by value, `'?'` past 9 (never reached for an
Nd digit). -/
def digitChar : Nat → Char
  | 0 => '0'
  | 1 => '1'
  | 2 => '2'
  | 3 => '3'
  | 4 => '4'
  | 5 => '5'
  | 6 => '6'
  | 7 => '7'
  | 8 => '8'
  | 9 => '9'
  | _ => '?'

/-- One character of CPython's decimal-and-space-to-ASCII transform. -/
def pyTransform (c : Char) : Char :=
  if c.toNat < 127 then c
  else if pyIsSpaceHigh c then ' '
  else
    match pyToDecimal c with
    | some d => digitChar d
    | none => '?'

/-- Characters stripped by the ASCII-level parser of `int(str)` after
the transform: space, tab, LF, VT, FF, CR (`Py_ISSPACE`). -/
def pySpace (c : Char) : Bool :=
  c.toNat = 32 || (9 ≤ c.toNat && c.toNat ≤ 13)

/-- Strip leading and trailing ASCII whitespace, as the ASCII-level
parser of `int(str)` does after the transform. -/
def stripPy (cs : List Char) : List Char :=
  ((cs.dropWhile pySpace).reverse.dropWhile pySpace).reverse

/-- Digit tail of a Python integer literal: after a first digit,
digits may follow directly or after a single underscore. -/
def pyDigitsAux (acc : Nat) : List Char → Option Nat
  | [] => some acc
  | '_' :: c :: rest =>
    if c.isDigit then pyDigitsAux (acc * 10 + (c.toNat - 48)) rest else none
  | c :: rest =>
    if c.isDigit then pyDigitsAux (acc * 10 + (c.toNat - 48)) rest else none

/-- One or more digits with optional single internal underscores,
the unsigned part of a Python integer literal. -/
def pyUnsigned : List Char → Option Nat
  | [] => none
  | c :: rest => if c.isDigit then pyDigitsAux (c.toNat - 48) rest else none

/-- Signed Python integer literal body (after whitespace stripping). -/
def parsePyIntCore : List Char → Option Int
  | [] => none
  | c :: rest =>
    if c = '+' then (pyUnsigned rest).map Int.ofNat
    else if c = '-' then (pyUnsigned rest).map (fun n => -(n : Int))
    else (pyUnsigned (c :: rest)).map Int.ofNat

/-- Embedding of Python `int(s)` on a decimal string: map the text
through CPython's decimal-and-space-to-ASCII transform, strip
whitespace, then parse an optional sign and digits with single
internal underscores.  `none` models the `ValueError` raised on
anything else. -/
def parsePyInt (s : String) : Option Int :=
  parsePyIntCore (stripPy (s.data.map pyTransform))

/-- Split a char list at the first `'/'`; second component is
everything after it (empty when there is no `'/'`). -/
def splitSlash : List Char → List Char × List Char
  | [] => ([], [])
  | c :: cs =>
    if c = '/' then ([], cs)
    else
      let p := splitSlash cs
      (c :: p.1, p.2)

/-- Embedding of `name.partition("/")` restricted to the two components
the script uses: the part before the first `'/'` and the part after it. -/
def partitionSlash (s : String) : String × String :=
  let p := splitSlash s.data
  (⟨p.1⟩, ⟨p.2⟩)

/-- Bool-valued prefix test on char lists. -/
def listPrefix : List Char → List Char → Bool
  | [], _ => true
  | _ :: _, [] => false
  | a :: as, b :: bs => a = b && listPrefix as bs

/-- Bool-valued substring containment, Python `pat in s` on strings. -/
def containsSub (pat : List Char) : List Char → Bool
  | [] => pat.isEmpty
  | c :: cs => listPrefix pat (c :: cs) || containsSub pat cs

/-- Python `tok in base` for strings. -/
def strContains (base tok : String) : Bool :=
  containsSub tok.data base.data

/-- Embedding of `parse_name(name)`: split off the `/arg` suffix, parse
it as the row count (`0` when absent, `ValueError` when malformed), and
classify engine and case by substring tests on the base. -/
def parse_name (name : String) : Except Err (String × Int × String) :=
  let base := (partitionSlash name).1
  let arg := (partitionSlash name).2
  match (if arg = "" then some 0 else parsePyInt arg) with
  | none => .error (.valueError arg)
  | some rows =>
    let engine :=
      if strContains base "Entropy" then "entropy"
      else if strContains base "Sqlite" then "sqlite"
      else "other"
    let case_ :=
      if strContains base "InsertBatch" then "insert_batch"
      else if strContains base "PointSelect" then "point_select"
      else base
    .ok (case_, rows, engine)

/-- One benchmark entry, restricted to the five JSON fields the script
reads; `none` is an absent field. -/
structure Entry where
  name : Option String := none
  real_time : Option ℚ := none
  time_unit : Option String := none
  aggregate_name : Option String := none
  run_type : Option String := none
  deriving DecidableEq, Repr

/-- The skip test `entry.get("aggregate_name") or
entry.get("run_type") == "aggregate"`; a string is truthy iff
nonempty. -/
def isAggregate (e : Entry) : Bool :=
  (match e.aggregate_name with
   | some s => s ≠ ""
   | none => false)
  || e.run_type = some "aggregate"

/-- A per-key row of the summary table: engine name to ns-per-op,
modelling the inner Python dict. -/
abbrev Row := List (String × ℚ)

/-- The summary table, modelling `summary: Dict[Tuple[str, int],
Dict[str, float]]` as an insertion-ordered association list. -/
abbrev Summary := List ((String × Int) × Row)

/-- `row[engine] = v` on the inner dict: overwrite in place, else
append. -/
def rowSet (row : Row) (engine : String) (v : ℚ) : Row :=
  match row with
  | [] => [(engine, v)]
  | (e, w) :: rest =>
    if e = engine then (e, v) :: rest else (e, w) :: rowSet rest engine v

/-- `row.get(engine)` on the inner dict. -/
def rowGet (row : Row) (engine : String) : Option ℚ :=
  match row with
  | [] => none
  | (e, v) :: rest => if e = engine then some v else rowGet rest engine

/-- `summary.setdefault(key, {})[engine] = v`: find the key's row and
overwrite its engine slot, or append a fresh singleton row. -/
def summarySet (s : Summary) (key : String × Int) (engine : String) (v : ℚ) :
    Summary :=
  match s with
  | [] => [(key, [(engine, v)])]
  | (k, row) :: rest =>
    if k = key then (k, rowSet row engine v) :: rest
    else (k, row) :: summarySet rest key engine v

/-- `summary.get(key)`. -/
def lookupSummary (s : Summary) (key : String × Int) : Option Row :=
  match s with
  | [] => none
  | (k, row) :: rest => if k = key then some row else lookupSummary rest key

/-- The nanoseconds stored for `key`/`engine`, read through both dict
levels. -/
def summaryGet (s : Summary) (key : String × Int) (engine : String) :
    Option ℚ :=
  match lookupSummary s key with
  | some row => rowGet row engine
  | none => none

/-- One iteration of the aggregation loop of `main` on one entry:
skip aggregates, skip empty names, parse the name (may fail), skip
engine `other`, normalize the time (may fail), and upsert. -/
def processEntry (s : Summary) (e : Entry) : Except Err Summary :=
  if isAggregate e then .ok s
  else if e.name.getD "" = "" then .ok s
  else
    match parse_name (e.name.getD "") with
    | .error er => .error er
    | .ok (case_, rows, engine) =>
      if engine = "other" then .ok s
      else
        match to_ns (e.real_time.getD 0) (e.time_unit.getD "ns") with
        | .error er => .error er
        | .ok ns => .ok (summarySet s (case_, rows) engine ns)

/-- The aggregation fold of `main` starting from table `s`; an
exception aborts the whole fold. -/
def aggAux (s : Summary) : List Entry → Except Err Summary
  | [] => .ok s
  | e :: es =>
    match processEntry s e with
    | .ok s₁ => aggAux s₁ es
    | .error er => .error er

/-- The aggregation loop of `main` over the `benchmarks` array. -/
def aggregate (es : List Entry) : Except Err Summary :=
  aggAux [] es

/-- The lexicographic order `sorted()` uses on `(str, int)` keys:
strings by code point, then integers. -/
def keyLE (a b : String × Int) : Prop :=
  a.1 < b.1 ∨ (a.1 = b.1 ∧ a.2 ≤ b.2)

/-- Strict version of `keyLE`, for stating strict ascending output. -/
def keyLT (a b : String × Int) : Prop :=
  a.1 < b.1 ∨ (a.1 = b.1 ∧ a.2 < b.2)

instance : DecidableRel keyLE := fun a b => by
  unfold keyLE; infer_instance

instance : DecidableRel keyLT := fun a b => by
  unfold keyLT; infer_instance

instance : IsTotal (String × Int) keyLE :=
  ⟨fun a b => by
    unfold keyLE
    rcases lt_trichotomy a.1 b.1 with h | h | h
    · exact Or.inl (Or.inl h)
    · rcases le_total a.2 b.2 with h2 | h2
      · exact Or.inl (Or.inr ⟨h, h2⟩)
      · exact Or.inr (Or.inr ⟨h.symm, h2⟩)
    · exact Or.inr (Or.inl h)⟩

instance : IsTrans (String × Int) keyLE :=
  ⟨fun a b c hab hbc => by
    unfold keyLE at *
    rcases hab with h1 | ⟨h1, h1'⟩ <;> rcases hbc with h2 | ⟨h2, h2'⟩
    · exact Or.inl (h1.trans h2)
    · exact Or.inl (h2 ▸ h1)
    · exact Or.inl (h1 ▸ h2)
    · exact Or.inr ⟨h1.trans h2, h1'.trans h2'⟩⟩

/-- `sorted(summary.keys())`. -/
def sortKeys (ks : List (String × Int)) : List (String × Int) :=
  List.insertionSort keyLE ks

/-- One emitted CSV data row, field by field; `none` is an empty CSV
field. -/
structure OutRow where
  case_ : String
  rows : Int
  entropy_ns : Option ℚ
  sqlite_ns : Option ℚ
  ratio : Option ℚ
  deriving DecidableEq, Repr

/-- The fixed CSV header written first. -/
def header : List String :=
  ["case", "rows", "entropy_ns_per_op", "sqlite_ns_per_op", "ratio"]

/-- Render the data row for one key: the two engine fields when
present, and the guarded ratio. -/
def emitRow (s : Summary) (k : String × Int) : OutRow :=
  let row := (lookupSummary s k).getD []
  let e := rowGet row "entropy"
  let q := rowGet row "sqlite"
  let ratio :=
    match e, q with
    | some ev, some sv => if sv = 0 then none else some (ev / sv)
    | _, _ => none
  ⟨k.1, k.2, e, q, ratio⟩

/-- The emission loop of `main`: one data row per key, keys sorted. -/
def emit (s : Summary) : List OutRow :=
  (sortKeys (s.map Prod.fst)).map (emitRow s)

/-- The whole pipeline of `main` on the decoded `benchmarks` array:
aggregate, then write header and sorted data rows.  An error during
aggregation occurs before the output file is opened, so the error case
carries no output at all. -/
def main_run (data : List Entry) : Except Err (List String × List OutRow) :=
  match aggregate data with
  | .ok s => .ok (header, emit s)
  | .error er => .error er

/-- The single write `(key, engine, ns)` an entry performs on the
summary table, `none` when the entry is skipped or its processing
fails.  Derived characterization of one loop iteration, used to state
last-write-wins. -/
def entryContrib (e : Entry) : Option ((String × Int) × String × ℚ) :=
  if isAggregate e then none
  else if e.name.getD "" = "" then none
  else
    match parse_name (e.name.getD "") with
    | .error _ => none
    | .ok (case_, rows, engine) =>
      if engine = "other" then none
      else
        match to_ns (e.real_time.getD 0) (e.time_unit.getD "ns") with
        | .error _ => none
        | .ok ns => some ((case_, rows), engine, ns)

/-- The value written last (in input order) to `key`/`engine` by the
entries, if any: the value last-write-wins keeps. -/
def lastWrite (es : List Entry) (key : String × Int) (engine : String) :
    Option ℚ :=
  match es with
  | [] => none
  | e :: rest =>
    match lastWrite rest key engine with
    | some v => some v
    | none =>
      match entryContrib e with
      | some (k, eng, v) =>
        if k = key ∧ eng = engine then some v else none
      | none => none

end Summarize

namespace Summarize

/-! ## Helper lemmas -/

theorem processEntry_of_aggregate {e : Entry} (s : Summary)
    (h : isAggregate e = true) : processEntry s e = .ok s := by
  simp [processEntry, h]

theorem aggAux_filter_aggregate :
    ∀ (es : List Entry) (s : Summary),
      aggAux s (es.filter fun x => !isAggregate x) = aggAux s es
  | [], _ => rfl
  | e :: es, s => by
    by_cases h : isAggregate e
    · rw [show (e :: es).filter (fun x => !isAggregate x)
            = es.filter (fun x => !isAggregate x) by simp [List.filter, h]]
      rw [aggAux_filter_aggregate es s]
      simp [aggAux, processEntry_of_aggregate s h]
    · rw [show (e :: es).filter (fun x => !isAggregate x)
            = e :: es.filter (fun x => !isAggregate x) by
          simp [List.filter, h]]
      simp only [aggAux]
      cases processEntry s e with
      | ok s₁ => exact aggAux_filter_aggregate es s₁
      | error er => rfl

theorem aggAux_append (l₁ l₂ : List Entry) :
    ∀ s, aggAux s (l₁ ++ l₂)
      = match aggAux s l₁ with
        | .ok s' => aggAux s' l₂
        | .error er => .error er := by
  induction l₁ with
  | nil => intro s; rfl
  | cons e es ih =>
    intro s
    simp only [List.cons_append, aggAux]
    cases processEntry s e with
    | ok s₁ => exact ih s₁
    | error er => rfl

theorem aggAux_cons_ok {s s' : Summary} {e : Entry} {es : List Entry}
    (h : aggAux s (e :: es) = .ok s') :
    ∃ s₁, processEntry s e = .ok s₁ ∧ aggAux s₁ es = .ok s' := by
  unfold aggAux at h
  cases hp : processEntry s e with
  | ok s₁ => rw [hp] at h; exact ⟨s₁, rfl, h⟩
  | error er => rw [hp] at h; cases h

theorem rowGet_rowSet (row : Row) (eng eng' : String) (v : ℚ) :
    rowGet (rowSet row eng v) eng'
      = if eng = eng' then some v else rowGet row eng' := by
  induction row with
  | nil =>
    by_cases h : eng = eng' <;> simp [rowSet, rowGet, h]
  | cons p rest ih =>
    obtain ⟨e, w⟩ := p
    by_cases he : e = eng
    · subst he
      by_cases h : e = eng' <;> simp [rowSet, rowGet, h]
    · by_cases h : e = eng'
      · subst h
        simp [rowSet, rowGet, he, Ne.symm he]
      · simp [rowSet, rowGet, he, h, ih]

theorem lookupSummary_summarySet (s : Summary) (k k' : String × Int)
    (eng : String) (v : ℚ) :
    lookupSummary (summarySet s k eng v) k'
      = if k = k' then some (rowSet ((lookupSummary s k).getD []) eng v)
        else lookupSummary s k' := by
  induction s with
  | nil =>
    by_cases h : k = k' <;> simp [summarySet, lookupSummary, rowSet, h]
  | cons p rest ih =>
    obtain ⟨k₀, row⟩ := p
    by_cases h0 : k₀ = k
    · subst h0
      by_cases h : k₀ = k' <;> simp [summarySet, lookupSummary, h]
    · by_cases h : k₀ = k'
      · subst h
        simp [summarySet, lookupSummary, h0, Ne.symm h0]
      · simp [summarySet, lookupSummary, h0, h, ih]

theorem summaryGet_eq (s : Summary) (k : String × Int) (eng : String) :
    summaryGet s k eng = rowGet ((lookupSummary s k).getD []) eng := by
  unfold summaryGet
  cases lookupSummary s k <;> simp [rowGet]

theorem summaryGet_summarySet (s : Summary) (k k' : String × Int)
    (eng eng' : String) (v : ℚ) :
    summaryGet (summarySet s k eng v) k' eng'
      = if k = k' ∧ eng = eng' then some v else summaryGet s k' eng' := by
  rw [summaryGet_eq, summaryGet_eq, lookupSummary_summarySet]
  by_cases hk : k = k'
  · subst hk
    by_cases heng : eng = eng' <;> simp [heng, rowGet_rowSet]
  · simp [hk]

theorem processEntry_ok_cases {s s' : Summary} {e : Entry}
    (h : processEntry s e = .ok s') :
    (entryContrib e = none ∧ s' = s) ∨
    ∃ k eng v, entryContrib e = some (k, eng, v)
      ∧ s' = summarySet s k eng v := by
  unfold processEntry at h
  by_cases h1 : isAggregate e = true
  · left
    refine ⟨by simp [entryContrib, h1], ?_⟩
    simp only [if_pos h1, Except.ok.injEq] at h
    exact h.symm
  · by_cases h2 : e.name.getD "" = ""
    · left
      refine ⟨by simp [entryContrib, h1, h2], ?_⟩
      simp only [if_neg h1, if_pos h2, Except.ok.injEq] at h
      exact h.symm
    · simp only [if_neg h1, if_neg h2] at h
      cases hp : parse_name (e.name.getD "") with
      | error er => rw [hp] at h; cases h
      | ok t =>
        obtain ⟨c, r, eng⟩ := t
        rw [hp] at h
        by_cases h3 : eng = "other"
        · left
          refine ⟨by simp [entryContrib, h1, h2, hp, h3], ?_⟩
          simp only [if_pos h3, Except.ok.injEq] at h
          exact h.symm
        · simp only [if_neg h3] at h
          cases ht : to_ns (e.real_time.getD 0) (e.time_unit.getD "ns") with
          | error er => rw [ht] at h; cases h
          | ok ns =>
            rw [ht] at h
            right
            refine ⟨(c, r), eng, ns,
              by simp [entryContrib, h1, h2, hp, h3, ht], ?_⟩
            simp only [Except.ok.injEq] at h
            exact h.symm

theorem summaryGet_aggAux :
    ∀ (es : List Entry) (s s' : Summary), aggAux s es = .ok s' →
      ∀ k eng, summaryGet s' k eng
        = match lastWrite es k eng with
          | some v => some v
          | none => summaryGet s k eng
  | [], s, s', h, k, eng => by
    unfold aggAux at h
    simp only [Except.ok.injEq] at h
    subst h
    simp [lastWrite]
  | e :: es, s, s', h, k, eng => by
    obtain ⟨s₁, hpe, hrest⟩ := aggAux_cons_ok h
    have ih := summaryGet_aggAux es s₁ s' hrest k eng
    rw [ih]
    cases hlw : lastWrite es k eng with
    | some v => simp [lastWrite, hlw]
    | none =>
      simp only [lastWrite, hlw]
      rcases processEntry_ok_cases hpe with ⟨hc, rfl⟩ | ⟨k', eng', v, hc, rfl⟩
      · simp [hc]
      · rw [summaryGet_summarySet]
        simp only [hc]
        by_cases hke : k' = k ∧ eng' = eng
        · simp [hke]
        · simp [hke]

theorem keyLT_of_keyLE_ne {a b : String × Int} (h : keyLE a b)
    (hne : a ≠ b) : keyLT a b := by
  rcases h with h | ⟨h1, h2⟩
  · exact Or.inl h
  · right
    exact ⟨h1, lt_of_le_of_ne h2 fun h3 => hne (Prod.ext h1 h3)⟩

theorem pairwise_keyLT_of_sorted :
    ∀ {l : List (String × Int)}, List.Pairwise keyLE l → l.Nodup →
      List.Pairwise keyLT l
  | [], _, _ => List.Pairwise.nil
  | a :: l, h, hn => by
    rw [List.pairwise_cons] at h ⊢
    rw [List.nodup_cons] at hn
    refine ⟨fun b hb => keyLT_of_keyLE_ne (h.1 b hb) ?_,
      pairwise_keyLT_of_sorted h.2 hn.2⟩
    intro he
    exact hn.1 (he ▸ hb)

theorem keys_summarySet (s : Summary) (k : String × Int) (eng : String)
    (v : ℚ) :
    (summarySet s k eng v).map Prod.fst
      = if k ∈ s.map Prod.fst then s.map Prod.fst
        else s.map Prod.fst ++ [k] := by
  induction s with
  | nil => simp [summarySet]
  | cons p rest ih =>
    obtain ⟨k₀, row⟩ := p
    by_cases h : k₀ = k
    · subst h
      simp [summarySet]
    · by_cases hm : k ∈ rest.map Prod.fst
      · simp [summarySet, h, Ne.symm h, hm, ih]
      · simp [summarySet, h, Ne.symm h, hm, ih]

theorem nodup_keys_summarySet {s : Summary} (k : String × Int)
    (eng : String) (v : ℚ) (h : (s.map Prod.fst).Nodup) :
    ((summarySet s k eng v).map Prod.fst).Nodup := by
  rw [keys_summarySet]
  by_cases hm : k ∈ s.map Prod.fst
  · simpa [hm]
  · simp only [if_neg hm]
    simp [List.nodup_append, h, hm]

theorem aggAux_inv_mem (P : Summary → Prop) :
    ∀ (es : List Entry),
      (∀ e ∈ es, ∀ s s₁, processEntry s e = .ok s₁ → P s → P s₁) →
      ∀ s s', aggAux s es = .ok s' → P s → P s'
  | [], _, s, s', h, hs => by
    unfold aggAux at h
    simp only [Except.ok.injEq] at h
    exact h ▸ hs
  | e :: es, hstep, s, s', h, hs => by
    obtain ⟨s₁, hpe, hrest⟩ := aggAux_cons_ok h
    exact aggAux_inv_mem P es
      (fun x hx => hstep x (List.mem_cons_of_mem e hx)) s₁ s' hrest
      (hstep e (List.mem_cons_self e es) s s₁ hpe hs)

theorem nodup_keys_aggregate (es : List Entry) (s : Summary)
    (h : aggregate es = .ok s) : (s.map Prod.fst).Nodup :=
  aggAux_inv_mem (fun t => (t.map Prod.fst).Nodup) es
    (fun _ _ s₀ s₁ hpe hnd => by
      rcases processEntry_ok_cases hpe with ⟨-, rfl⟩ | ⟨k, eng, v, -, rfl⟩
      · exact hnd
      · exact nodup_keys_summarySet k eng v hnd)
    [] s h (by simp)

theorem emit_keys (s : Summary) :
    (emit s).map (fun r => (r.case_, r.rows))
      = sortKeys (s.map Prod.fst) := by
  unfold emit
  rw [List.map_map]
  have hfun : ((fun r : OutRow => (r.case_, r.rows)) ∘ emitRow s) = id := by
    funext k
    simp [emitRow, Function.comp]
  rw [hfun, List.map_id]

theorem parse_name_engine {n c : String} {r : Int} {eng : String}
    (h : parse_name n = .ok (c, r, eng)) :
    eng = "entropy" ∨ eng = "sqlite" ∨ eng = "other" := by
  simp only [parse_name] at h
  split at h
  · cases h
  · simp only [Except.ok.injEq, Prod.mk.injEq] at h
    obtain ⟨-, -, heng⟩ := h
    subst heng
    by_cases h1 : strContains (partitionSlash n).1 "Entropy" = true
    · simp [h1]
    · by_cases h2 : strContains (partitionSlash n).1 "Sqlite" = true <;>
        simp [h1, h2]

theorem entryContrib_engine {e : Entry} {k : String × Int} {eng : String}
    {v : ℚ} (h : entryContrib e = some (k, eng, v)) :
    eng = "entropy" ∨ eng = "sqlite" := by
  unfold entryContrib at h
  by_cases h1 : isAggregate e = true
  · simp [h1] at h
  · by_cases h2 : e.name.getD "" = ""
    · simp [h1, h2] at h
    · simp only [if_neg h1, if_neg h2] at h
      cases hp : parse_name (e.name.getD "") with
      | error er => rw [hp] at h; simp at h
      | ok t =>
        obtain ⟨c, r, eng'⟩ := t
        rw [hp] at h
        by_cases h3 : eng' = "other"
        · simp [h3] at h
        · simp only [if_neg h3] at h
          cases ht : to_ns (e.real_time.getD 0) (e.time_unit.getD "ns") with
          | error er => rw [ht] at h; simp at h
          | ok ns =>
            rw [ht] at h
            simp only [Option.some.injEq, Prod.mk.injEq] at h
            obtain ⟨-, heng, -⟩ := h
            rcases parse_name_engine hp with h' | h' | h'
            · exact Or.inl (heng ▸ h')
            · exact Or.inr (heng ▸ h')
            · exact absurd h' h3

theorem mem_rowSet {row : Row} {eng : String} {v : ℚ} {q : String × ℚ}
    (hq : q ∈ rowSet row eng v) : q ∈ row ∨ q.1 = eng := by
  induction row with
  | nil =>
    simp [rowSet] at hq
    exact Or.inr (by rw [hq])
  | cons p rest ih =>
    obtain ⟨e, w⟩ := p
    by_cases h : e = eng
    · subst h
      simp only [rowSet, if_pos rfl] at hq
      rcases List.mem_cons.mp hq with rfl | hq'
      · exact Or.inr rfl
      · exact Or.inl (List.mem_cons_of_mem _ hq')
    · simp only [rowSet, if_neg h] at hq
      rcases List.mem_cons.mp hq with rfl | hq'
      · exact Or.inl (List.mem_cons_self _ _)
      · rcases ih hq' with h' | h'
        · exact Or.inl (List.mem_cons_of_mem _ h')
        · exact Or.inr h'

theorem summarySet_inv {P : String → Prop} {s : Summary}
    {k : String × Int} {eng : String} {v : ℚ}
    (hs : ∀ p ∈ s, ∀ q ∈ p.2, P q.1) (heng : P eng) :
    ∀ p ∈ summarySet s k eng v, ∀ q ∈ p.2, P q.1 := by
  induction s with
  | nil =>
    intro p hp q hq
    simp [summarySet] at hp
    subst hp
    simp at hq
    rw [hq]
    exact heng
  | cons pr rest ih =>
    obtain ⟨k₀, row⟩ := pr
    intro p hp q hq
    by_cases h : k₀ = k
    · subst h
      simp only [summarySet, if_pos rfl] at hp
      rcases List.mem_cons.mp hp with rfl | hp'
      · rcases mem_rowSet hq with h' | h'
        · exact hs (k₀, row) (by simp) q h'
        · rw [h']
          exact heng
      · exact hs p (List.mem_cons_of_mem _ hp') q hq
    · simp only [summarySet, if_neg h] at hp
      rcases List.mem_cons.mp hp with rfl | hp'
      · exact hs (k₀, row) (by simp) q hq
      · exact ih (fun p' hp'' => hs p' (List.mem_cons_of_mem _ hp'')) p hp' q hq

theorem splitSlash_arg_mem :
    ∀ (cs : List Char) (c : Char), c ∈ (splitSlash cs).2 → c ∈ cs
  | [], c, h => by simp [splitSlash] at h
  | ch :: rest, c, h => by
    by_cases he : ch = '/'
    · simp only [splitSlash, if_pos he] at h
      exact List.mem_cons_of_mem _ h
    · simp only [splitSlash, if_neg he] at h
      exact List.mem_cons_of_mem _ (splitSlash_arg_mem rest c h)

theorem stripPy_mem {cs : List Char} {c : Char} (h : c ∈ stripPy cs) :
    c ∈ cs := by
  unfold stripPy at h
  have h1 := List.mem_reverse.mp h
  have h2 := (List.dropWhile_sublist pySpace).subset h1
  have h3 := List.mem_reverse.mp h2
  exact (List.dropWhile_sublist pySpace).subset h3

theorem parsePyIntCore_nonneg {cs : List Char} {r : Int}
    (h : parsePyIntCore cs = some r) (hm : '-' ∉ cs) : 0 ≤ r := by
  cases cs with
  | nil => cases h
  | cons ch rest =>
    by_cases h1 : ch = '+'
    · simp only [parsePyIntCore, if_pos h1] at h
      rcases Option.map_eq_some'.mp h with ⟨m, -, hm2⟩
      exact hm2 ▸ Int.ofNat_nonneg m
    · by_cases h2 : ch = '-'
      · exact absurd (by rw [h2]; exact List.mem_cons_self _ _) hm
      · simp only [parsePyIntCore, if_neg h1, if_neg h2] at h
        rcases Option.map_eq_some'.mp h with ⟨m, -, hm2⟩
        exact hm2 ▸ Int.ofNat_nonneg m

theorem digitChar_ne_dash (d : Nat) : digitChar d ≠ '-' := by
  unfold digitChar
  split <;> decide

theorem pyTransform_eq_dash {c : Char} (h : pyTransform c = '-') :
    c = '-' := by
  unfold pyTransform at h
  by_cases h1 : c.toNat < 127
  · rw [if_pos h1] at h
    exact h
  · rw [if_neg h1] at h
    by_cases h2 : pyIsSpaceHigh c = true
    · rw [if_pos h2] at h
      exact absurd h (by decide)
    · rw [if_neg h2] at h
      cases hd : pyToDecimal c with
      | some d =>
        rw [hd] at h
        exact absurd h (digitChar_ne_dash d)
      | none =>
        rw [hd] at h
        exact absurd h (by decide)

theorem parse_name_rows_nonneg {n c eng : String} {r : Int}
    (h : parse_name n = .ok (c, r, eng)) (hm : '-' ∉ n.data) : 0 ≤ r := by
  simp only [parse_name] at h
  by_cases ha : (partitionSlash n).2 = ""
  · rw [if_pos ha] at h
    simp only [Except.ok.injEq, Prod.mk.injEq] at h
    obtain ⟨-, hr, -⟩ := h
    exact hr.le
  · rw [if_neg ha] at h
    cases hpi : parsePyInt (partitionSlash n).2 with
    | none => rw [hpi] at h; cases h
    | some rows =>
      rw [hpi] at h
      simp only [Except.ok.injEq, Prod.mk.injEq] at h
      obtain ⟨-, hr, -⟩ := h
      rw [← hr]
      unfold parsePyInt at hpi
      refine parsePyIntCore_nonneg hpi ?_
      intro hc
      obtain ⟨a, ha, hta⟩ := List.mem_map.mp (stripPy_mem hc)
      rw [pyTransform_eq_dash hta] at ha
      exact hm (splitSlash_arg_mem n.data '-' ha)

theorem summarySet_key_inv {Q : String × Int → Prop} {s : Summary}
    {k : String × Int} {eng : String} {v : ℚ}
    (hs : ∀ p ∈ s, Q p.1) (hk : Q k) :
    ∀ p ∈ summarySet s k eng v, Q p.1 := by
  induction s with
  | nil =>
    intro p hp
    simp [summarySet] at hp
    rw [hp]
    exact hk
  | cons pr rest ih =>
    obtain ⟨k₀, row⟩ := pr
    intro p hp
    by_cases h : k₀ = k
    · subst h
      simp only [summarySet, if_pos rfl] at hp
      rcases List.mem_cons.mp hp with rfl | hp'
      · exact hs (k₀, row) (by simp)
      · exact hs p (List.mem_cons_of_mem _ hp')
    · simp only [summarySet, if_neg h] at hp
      rcases List.mem_cons.mp hp with rfl | hp'
      · exact hs (k₀, row) (by simp)
      · exact ih (fun p' hp'' => hs p' (List.mem_cons_of_mem _ hp'')) p hp'

theorem entryContrib_parse {e : Entry} {k : String × Int} {eng : String}
    {v : ℚ} (h : entryContrib e = some (k, eng, v)) :
    ∃ n, e.name = some n ∧ parse_name n = .ok (k.1, k.2, eng) := by
  unfold entryContrib at h
  by_cases h1 : isAggregate e = true
  · simp [h1] at h
  · by_cases h2 : e.name.getD "" = ""
    · simp [h1, h2] at h
    · cases hn : e.name with
      | none => rw [hn] at h2; simp at h2
      | some n =>
        refine ⟨n, rfl, ?_⟩
        rw [hn] at h h2
        simp only [Option.getD_some] at h h2
        simp only [if_neg h1, if_neg h2] at h
        cases hp : parse_name n with
        | error er => rw [hp] at h; simp at h
        | ok t =>
          obtain ⟨c, r, eng'⟩ := t
          rw [hp] at h
          by_cases h3 : eng' = "other"
          · simp [h3] at h
          · simp only [if_neg h3] at h
            cases ht : to_ns (e.real_time.getD 0) (e.time_unit.getD "ns") with
            | error er => rw [ht] at h; simp at h
            | ok ns =>
              rw [ht] at h
              simp only [Option.some.injEq, Prod.mk.injEq] at h
              obtain ⟨hk, heng, -⟩ := h
              subst hk
              subst heng
              rfl

/-! ## Claims -/

/-- C1.  End-to-end: on the two-entry benchmarks array with
`BM_EntropyInsertBatch/10` at 100 ns and `BM_SqliteInsertBatch/10` at
50 us, the run succeeds and emits, after the five-field header, exactly
one data row, carrying case `insert_batch`, rows `10`, entropy 100 ns,
sqlite 50000 ns and ratio `100 / 50000` (= 0.002). -/
theorem end_to_end_two_entries :
    main_run
      [{ name := some "BM_EntropyInsertBatch/10", real_time := some 100,
         time_unit := some "ns" },
       { name := some "BM_SqliteInsertBatch/10", real_time := some 50,
         time_unit := some "us" }]
    = .ok (header,
        [⟨"insert_batch", 10, some 100, some 50000,
          some ((100 : ℚ) / 50000)⟩]) := by
  norm_num +decide [main_run, aggregate, aggAux, processEntry, parse_name,
    partitionSlash, splitSlash, strContains, containsSub, listPrefix,
    isAggregate, to_ns, summarySet, rowSet, emit, sortKeys, emitRow,
    lookupSummary, rowGet, header, parsePyInt, pyTransform, pyIsSpaceHigh,
      pyToDecimal, pyDecimalZeros, digitChar, stripPy, parsePyIntCore,
    pyUnsigned, pyDigitsAux, pySpace, keyLE, List.insertionSort,
    List.orderedInsert]

/-- C2.  `to_ns` conversions: identity on `ns`, ×10³ on `us`, ×10⁶ on
`ms`, ×10⁹ on `s`, for every value; in particular the concrete
instances listed by the spec. -/
theorem to_ns_conversions (v : ℚ) :
    to_ns v "ns" = .ok v ∧ to_ns v "us" = .ok (v * 1000) ∧
    to_ns v "ms" = .ok (v * 1000000) ∧
    to_ns v "s" = .ok (v * 1000000000) ∧
    to_ns 1 "us" = .ok 1000 ∧ to_ns 1 "ms" = .ok 1000000 ∧
    to_ns 1 "s" = .ok 1000000000 ∧ to_ns 5 "ns" = .ok 5 := by
  refine ⟨rfl, ?_, ?_, ?_, ?_, ?_, ?_, rfl⟩ <;> norm_num +decide [to_ns]

/-- C3.  Every unit outside ns/us/ms/s makes `to_ns` fail with the
unsupported-unit error carrying that unit string, and an aggregation
error is fatal: `main_run` propagates it and produces no output (the
error branch carries no header and no rows). -/
theorem to_ns_unsupported (v : ℚ) (u : String) (data : List Entry)
    (er : Err) (h1 : u ≠ "ns") (h2 : u ≠ "us") (h3 : u ≠ "ms")
    (h4 : u ≠ "s") :
    to_ns v u = .error (.unsupportedUnit u) ∧
    (aggregate data = .error er → main_run data = .error er) := by
  constructor
  · simp [to_ns, h1, h2, h3, h4]
  · intro h
    simp [main_run, h]

/-- Witness for C3 at `u = "weeks"` on a one-entry input. -/
theorem to_ns_unsupported_witness :
    to_ns 1 "weeks" = .error (.unsupportedUnit "weeks") ∧
    main_run [{ name := some "BM_EntropyInsertBatch/10",
                real_time := some 1, time_unit := some "weeks" }]
      = .error (.unsupportedUnit "weeks") := by
  have h := to_ns_unsupported 1 "weeks"
    [{ name := some "BM_EntropyInsertBatch/10", real_time := some 1,
       time_unit := some "weeks" }]
    (.unsupportedUnit "weeks") (by decide) (by decide) (by decide)
    (by decide)
  refine ⟨h.1, h.2 ?_⟩
  norm_num +decide [aggregate, aggAux, processEntry, parse_name,
    partitionSlash, splitSlash, strContains, containsSub, listPrefix,
    isAggregate, to_ns, parsePyInt, pyTransform, pyIsSpaceHigh,
      pyToDecimal, pyDecimalZeros, digitChar, stripPy, parsePyIntCore, pyUnsigned,
    pyDigitsAux, pySpace]

/-- C7.  Aggregate-marked entries are skipped: the whole run computes
the same output once they are filtered out, and one loop iteration on
an aggregate-marked entry leaves the table unchanged, regardless of the
entry's name or engine. -/
theorem aggregate_entries_skipped (es : List Entry) (s : Summary)
    (e : Entry) :
    main_run es = main_run (es.filter fun x => !isAggregate x) ∧
    (isAggregate e = true → processEntry s e = .ok s) := by
  constructor
  · simp [main_run, aggregate, aggAux_filter_aggregate]
  · exact processEntry_of_aggregate s

/-- Witness for C7: a mean-aggregate entry (with an entropy name) is a
no-op for the table. -/
theorem aggregate_entries_skipped_witness :
    processEntry [] { name := some "BM_EntropyInsertBatch/10",
                      real_time := some 3, time_unit := some "ns",
                      aggregate_name := some "mean" } = .ok [] :=
  (aggregate_entries_skipped [] []
    { name := some "BM_EntropyInsertBatch/10", real_time := some 3,
      time_unit := some "ns", aggregate_name := some "mean" }).2
    (by decide)

/-- C6.  Last write wins: after a successful aggregation, the value
stored for any key and engine is exactly the one written by the last
(in input order) contributing entry — an earlier entry with the same
key and engine is silently overwritten, not an error. -/
theorem last_write_wins (es : List Entry) (s : Summary)
    (k : String × Int) (eng : String) (h : aggregate es = .ok s) :
    summaryGet s k eng = lastWrite es k eng := by
  rw [summaryGet_aggAux es [] s h k eng]
  cases lastWrite es k eng <;> simp [summaryGet, lookupSummary]

/-- Witness for C6: two entropy entries at the same key with timings
3 ns then 7 ns; the table keeps the later 7. -/
theorem last_write_wins_witness :
    summaryGet [(("insert_batch", 5), [("entropy", 7)])]
        ("insert_batch", 5) "entropy"
      = lastWrite
          [{ name := some "BM_EntropyInsertBatch/5", real_time := some 3,
             time_unit := some "ns" },
           { name := some "BM_EntropyInsertBatch/5", real_time := some 7,
             time_unit := some "ns" }]
          ("insert_batch", 5) "entropy" :=
  last_write_wins
    [{ name := some "BM_EntropyInsertBatch/5", real_time := some 3,
       time_unit := some "ns" },
     { name := some "BM_EntropyInsertBatch/5", real_time := some 7,
       time_unit := some "ns" }]
    [(("insert_batch", 5), [("entropy", 7)])] ("insert_batch", 5)
    "entropy"
    (by norm_num +decide [aggregate, aggAux, processEntry, parse_name,
      partitionSlash, splitSlash, strContains, containsSub, listPrefix,
      isAggregate, to_ns, summarySet, rowSet, parsePyInt, pyTransform, pyIsSpaceHigh,
      pyToDecimal, pyDecimalZeros, digitChar, stripPy,
      parsePyIntCore, pyUnsigned, pyDigitsAux, pySpace])

/-- C4.  Ratio guard: in every emitted data row of a successful run,
the ratio field is the entropy value divided by the sqlite value when
both fields are present and the sqlite value is nonzero, and is empty
in every other case. -/
theorem ratio_guard (data : List Entry) (hdr : List String)
    (rows : List OutRow) (r : OutRow)
    (hrun : main_run data = .ok (hdr, rows)) (hr : r ∈ rows) :
    r.ratio
      = match r.entropy_ns, r.sqlite_ns with
        | some ev, some sv => if sv = 0 then none else some (ev / sv)
        | _, _ => none := by
  unfold main_run at hrun
  cases hagg : aggregate data with
  | error er => rw [hagg] at hrun; cases hrun
  | ok s =>
    rw [hagg] at hrun
    simp only [Except.ok.injEq, Prod.mk.injEq] at hrun
    obtain ⟨-, hrows⟩ := hrun
    subst hrows
    obtain ⟨k, -, rfl⟩ := List.mem_map.mp hr
    simp only [emitRow]

/-- Witness for C4 on the zero-sqlite pair: the emitted row has both
values and an empty ratio. -/
theorem ratio_guard_witness :
    (OutRow.mk "insert_batch" 10 (some 100) (some 0) none).ratio
      = match (OutRow.mk "insert_batch" 10 (some 100) (some 0)
            none).entropy_ns,
          (OutRow.mk "insert_batch" 10 (some 100) (some 0)
            none).sqlite_ns with
        | some ev, some sv => if sv = 0 then none else some (ev / sv)
        | _, _ => none :=
  ratio_guard
    [{ name := some "BM_EntropyInsertBatch/10", real_time := some 100,
       time_unit := some "ns" },
     { name := some "BM_SqliteInsertBatch/10", real_time := some 0,
       time_unit := some "ns" }]
    header [OutRow.mk "insert_batch" 10 (some 100) (some 0) none]
    (OutRow.mk "insert_batch" 10 (some 100) (some 0) none)
    (by norm_num +decide [main_run, aggregate, aggAux, processEntry,
      parse_name, partitionSlash, splitSlash, strContains, containsSub,
      listPrefix, isAggregate, to_ns, summarySet, rowSet, emit, sortKeys,
      emitRow, lookupSummary, rowGet, header, parsePyInt, pyTransform, pyIsSpaceHigh,
      pyToDecimal, pyDecimalZeros, digitChar, stripPy,
      parsePyIntCore, pyUnsigned, pyDigitsAux, pySpace, keyLE,
      List.insertionSort, List.orderedInsert])
    (by simp)

/-- C5.  The data rows of every successful run are strictly ascending
in their (case, rows) key, lexicographically on the case string and
then numerically on rows, whatever the input entry order; with the key
set fixed, the output row order is therefore determined. -/
theorem output_sorted (data : List Entry) (hdr : List String)
    (rows : List OutRow) (h : main_run data = .ok (hdr, rows)) :
    List.Pairwise keyLT (rows.map fun r => (r.case_, r.rows)) := by
  unfold main_run at h
  cases hagg : aggregate data with
  | error er => rw [hagg] at h; cases h
  | ok s =>
    rw [hagg] at h
    simp only [Except.ok.injEq, Prod.mk.injEq] at h
    obtain ⟨-, hrows⟩ := h
    subst hrows
    rw [emit_keys]
    have hsorted : List.Pairwise keyLE (sortKeys (s.map Prod.fst)) :=
      List.sorted_insertionSort keyLE (s.map Prod.fst)
    have hnd : (sortKeys (s.map Prod.fst)).Nodup :=
      ((List.perm_insertionSort keyLE (s.map Prod.fst)).nodup_iff).mpr
        (nodup_keys_aggregate data s hagg)
    exact pairwise_keyLT_of_sorted hsorted hnd

/-- Witness for C5: two entries given in descending key order come out
ascending. -/
theorem output_sorted_witness :
    List.Pairwise keyLT
      (([⟨"insert_batch", 10, some 3, none, none⟩,
         ⟨"point_select", 50, none, some 5, none⟩] : List OutRow).map
        fun r => (r.case_, r.rows)) :=
  output_sorted
    [{ name := some "BM_SqlitePointSelect/50", real_time := some 5,
       time_unit := some "ns" },
     { name := some "BM_EntropyInsertBatch/10", real_time := some 3,
       time_unit := some "ns" }]
    header
    [⟨"insert_batch", 10, some 3, none, none⟩,
     ⟨"point_select", 50, none, some 5, none⟩]
    (by norm_num +decide [main_run, aggregate, aggAux, processEntry,
      parse_name, partitionSlash, splitSlash, strContains, containsSub,
      listPrefix, isAggregate, to_ns, summarySet, rowSet, emit, sortKeys,
      emitRow, lookupSummary, rowGet, header, parsePyInt, pyTransform, pyIsSpaceHigh,
      pyToDecimal, pyDecimalZeros, digitChar, stripPy,
      parsePyIntCore, pyUnsigned, pyDigitsAux, pySpace, keyLE,
      List.insertionSort, List.orderedInsert])

/-- C8.  Engine closure: in every successfully aggregated table, each
summary row maps only the engine names entropy and sqlite, and a loop
iteration on an entry whose name classifies to engine `other` leaves
the table unchanged — such entries are dropped entirely. -/
theorem other_engine_dropped (es : List Entry) (s : Summary) (e : Entry)
    (c : String) (r : Int) (t : Summary) (hagg : aggregate es = .ok s) :
    (∀ p ∈ s, ∀ q ∈ p.2, q.1 = "entropy" ∨ q.1 = "sqlite") ∧
    (parse_name (e.name.getD "") = .ok (c, r, "other") →
      processEntry t e = .ok t) := by
  constructor
  · exact aggAux_inv_mem
      (fun u => ∀ p ∈ u, ∀ q ∈ p.2, q.1 = "entropy" ∨ q.1 = "sqlite") es
      (fun _ _ s₀ s₁ hpe hinv => by
        rcases processEntry_ok_cases hpe with ⟨-, rfl⟩ | ⟨k, eng, v, hc, rfl⟩
        · exact hinv
        · exact summarySet_inv
            (P := fun x => x = "entropy" ∨ x = "sqlite") hinv
            (entryContrib_engine hc))
      [] s hagg (by simp)
  · intro hother
    unfold processEntry
    by_cases h1 : isAggregate e = true
    · simp [h1]
    · by_cases h2 : e.name.getD "" = ""
      · simp [h1, h2]
      · simp [h1, h2, hother]

/-- Witness for C8: a `BM_Other` entry is a no-op, and the table built
from it together with an entropy entry maps only engine entropy. -/
theorem other_engine_dropped_witness :
    ("entropy" = "entropy" ∨ "entropy" = "sqlite") ∧
    processEntry [] { name := some "BM_Other/10", real_time := some 1,
                      time_unit := some "ns" } = .ok [] := by
  have h := other_engine_dropped
    [{ name := some "BM_Other/10", real_time := some 1,
       time_unit := some "ns" },
     { name := some "BM_EntropyInsertBatch/10", real_time := some 100,
       time_unit := some "ns" }]
    [(("insert_batch", 10), [("entropy", 100)])]
    { name := some "BM_Other/10", real_time := some 1,
      time_unit := some "ns" }
    "BM_Other" 10 []
    (by norm_num +decide [aggregate, aggAux, processEntry, parse_name,
      partitionSlash, splitSlash, strContains, containsSub, listPrefix,
      isAggregate, to_ns, summarySet, rowSet, parsePyInt, pyTransform, pyIsSpaceHigh,
      pyToDecimal, pyDecimalZeros, digitChar, stripPy,
      parsePyIntCore, pyUnsigned, pyDigitsAux, pySpace])
  exact ⟨h.1 (("insert_batch", 10), [("entropy", 100)]) (by simp)
      ("entropy", 100) (by simp),
    h.2 (by decide)⟩

/-- C9 counterexample: the run accepts the name
`BM_EntropyInsertBatch` with argument `-5` (Python `int` parses the
signed literal) and emits a key whose rows component is -5, which is
negative — refuting "rows ≥ 0 for every input the program
accepts". -/
theorem rows_nonneg_counterexample :
    main_run [{ name := some "BM_EntropyInsertBatch/-5",
                real_time := some 100, time_unit := some "ns" }]
      = .ok (header, [⟨"insert_batch", -5, some 100, none, none⟩])
    ∧ (-5 : Int) < 0 := by
  constructor
  · norm_num +decide [main_run, aggregate, aggAux, processEntry,
      parse_name, partitionSlash, splitSlash, strContains, containsSub,
      listPrefix, isAggregate, to_ns, summarySet, rowSet, emit, sortKeys,
      emitRow, lookupSummary, rowGet, header, parsePyInt, pyTransform, pyIsSpaceHigh,
      pyToDecimal, pyDecimalZeros, digitChar, stripPy,
      parsePyIntCore, pyUnsigned, pyDigitsAux, pySpace, keyLE,
      List.insertionSort, List.orderedInsert]
  · decide

/-- C9 (amended).  Every key of a successfully aggregated table has an
integer rows component, and it is ≥ 0 whenever no entry name contains
a minus sign (in particular for the usual digit-only arguments); a
negative argument such as `-5` after the slash is accepted and yields
a negative rows value. -/
theorem rows_nonneg_amended (es : List Entry) (s : Summary)
    (hagg : aggregate es = .ok s)
    (hnames : ∀ e ∈ es, ∀ n, e.name = some n → '-' ∉ n.data) :
    ∀ p ∈ s, 0 ≤ p.1.2 :=
  aggAux_inv_mem (fun t => ∀ p ∈ t, 0 ≤ p.1.2) es
    (fun e he s₀ s₁ hpe hinv => by
      rcases processEntry_ok_cases hpe with ⟨-, rfl⟩ | ⟨k, eng, v, hc, rfl⟩
      · exact hinv
      · obtain ⟨n, hn, hp⟩ := entryContrib_parse hc
        exact summarySet_key_inv (Q := fun x => 0 ≤ x.2) hinv
          (parse_name_rows_nonneg hp (hnames e he n hn)))
    [] s hagg (by simp)

/-- Witness for the amended C9: a digit-argument entry gives a table
whose only key has rows 10 ≥ 0. -/
theorem rows_nonneg_amended_witness :
    (0 : Int) ≤ ((("insert_batch", 10), [("entropy", 100)]) :
      (String × Int) × Row).1.2 :=
  rows_nonneg_amended
    [{ name := some "BM_EntropyInsertBatch/10", real_time := some 100,
       time_unit := some "ns" }]
    [(("insert_batch", 10), [("entropy", 100)])]
    (by norm_num +decide [aggregate, aggAux, processEntry, parse_name,
      partitionSlash, splitSlash, strContains, containsSub, listPrefix,
      isAggregate, to_ns, summarySet, rowSet, parsePyInt, pyTransform, pyIsSpaceHigh,
      pyToDecimal, pyDecimalZeros, digitChar, stripPy,
      parsePyIntCore, pyUnsigned, pyDigitsAux, pySpace])
    (by
      intro ent hent n hn
      rw [List.mem_singleton] at hent
      subst hent
      simp only [Option.some.injEq] at hn
      rw [← hn]
      decide)
    (("insert_batch", 10), [("entropy", 100)]) (by simp)

/-- C10.  The name parser fails with a `ValueError` carrying the
argument exactly when the portion after the first `/` is nonempty and
not a valid Python integer literal; it returns normally otherwise; and
one such entry (not aggregate-marked, reached by the loop) aborts the
whole aggregation with that error. -/
theorem parse_name_arg_errors (name : String) :
    ((partitionSlash name).2 ≠ "" →
      parsePyInt (partitionSlash name).2 = none →
      parse_name name = .error (.valueError (partitionSlash name).2) ∧
      ∀ (e : Entry) (pre post : List Entry) (s : Summary),
        aggAux [] pre = .ok s → isAggregate e = false →
        e.name = some name →
        aggregate (pre ++ e :: post)
          = .error (.valueError (partitionSlash name).2)) ∧
    ((parse_name name).isOk = true ↔
      ((partitionSlash name).2 = ""
        ∨ (parsePyInt (partitionSlash name).2).isSome = true)) := by
  constructor
  · intro hne hbad
    have herr : parse_name name
        = .error (.valueError (partitionSlash name).2) := by
      simp only [parse_name]
      rw [if_neg hne, hbad]
    refine ⟨herr, ?_⟩
    intro e pre post s hpre hagg hname
    have hne' : name ≠ "" := by
      intro h0
      subst h0
      exact hne rfl
    unfold aggregate
    rw [aggAux_append pre (e :: post) [], hpre]
    have hpe : processEntry s e
        = .error (.valueError (partitionSlash name).2) := by
      unfold processEntry
      rw [hname]
      simp only [Option.getD_some]
      rw [if_neg (by simp [hagg]), if_neg hne', herr]
    unfold aggAux
    rw [hpe]
  · simp only [parse_name]
    by_cases ha : (partitionSlash name).2 = ""
    · rw [if_pos ha]
      simp [ha, Except.isOk, Except.toBool]
    · rw [if_neg ha]
      cases hpi : parsePyInt (partitionSlash name).2 with
      | none => simp [ha, hpi, Except.isOk, Except.toBool]
      | some m => simp [ha, hpi, Except.isOk, Except.toBool]

/-- Witness for C10: at `BM_EntropyInsertBatch/abc` the parser raises
the `ValueError` carrying "abc" and a single such entry aborts the
run, while a Unicode decimal-digit argument (Arabic-Indic three,
accepted by Python `int`) parses normally. -/
theorem parse_name_arg_errors_witness :
    parse_name "BM_EntropyInsertBatch/abc" = .error (.valueError "abc") ∧
    aggregate [{ name := some "BM_EntropyInsertBatch/abc",
                 real_time := some 1, time_unit := some "ns" }]
      = .error (.valueError "abc") ∧
    (parse_name "BM_EntropyInsertBatch/٣").isOk = true := by
  have h := (parse_name_arg_errors "BM_EntropyInsertBatch/abc").1
    (by decide) (by decide)
  have e2 : (partitionSlash "BM_EntropyInsertBatch/abc").2 = "abc" := by
    decide
  rw [e2] at h
  refine ⟨h.1,
    h.2 { name := some "BM_EntropyInsertBatch/abc", real_time := some 1,
          time_unit := some "ns" } [] [] [] rfl (by decide) rfl, ?_⟩
  exact (parse_name_arg_errors "BM_EntropyInsertBatch/٣").2.mpr
    (Or.inr (by decide))

end Summarize
